import Mathlib

/-!
Shallow embedding of the CNF SAT solving core of the repository:
`variable.py` (the literal model), `backtrack_solver.py` (clause
evaluation primitives and the exhaustive backtracking enumerator) and
`dpll_solver.py` (the DPLL engine in all-solutions and first-solution
modes).

Python lists of literals become Lean `List Variable`; membership tests
(`lit in assignment`) become decidable list membership; the mutable
`solutions` accumulator becomes the returned list of solutions, in
append order; the mutable `assignment` of the backtracking enumerator is
threaded explicitly as state (append / pop become `++ [l]` /
`dropLast`), so the enumerator returns the final assignment together
with the collected solutions.  `print` calls are dropped.  The DPLL
`while True` loop with `continue` is modelled as recursion on a fuel
parameter; the source recursion terminates because every iteration
fixes at least one previously unassigned variable of the formula, so a
fuel of (number of variables + 1) is never exhausted.
-/

/-- `Variable` from `variable.py`: a named literal with a polarity.
Equality and hashing are by (name, polarity). -/
structure Variable where
  name : String
  positive : Bool
deriving DecidableEq, Repr

/-- `__neg__` from `variable.py`: negation flips the polarity. -/
instance : Neg Variable := ⟨fun v => ⟨v.name, !v.positive⟩⟩

abbrev Clause := List Variable

abbrev Assignment := List Variable

/-- `is_satisfied` from `backtrack_solver.py` (an identical local copy
also appears inside both DPLL functions of `dpll_solver.py`): some
literal of the clause is present in the assignment. -/
def is_satisfied (clause : Clause) (assignment : Assignment) : Bool :=
  clause.any (fun l => decide (l ∈ assignment))

/-- `is_falsified` from `backtrack_solver.py`: the loop returns `False`
as soon as some literal's negation is missing from the assignment, and
`True` once the loop is exhausted (hence `True` for the empty clause). -/
def is_falsified (clause : Clause) (assignment : Assignment) : Bool :=
  clause.all (fun l => decide (-l ∈ assignment))

/-- `evaluate_formula` from `backtrack_solver.py`: the loop returns
`False` on the first unsatisfied clause, `True` otherwise. -/
def evaluate_formula : List Clause → Assignment → Bool
  | [], _ => true
  | c :: cs, assignment =>
    if is_satisfied c assignment then evaluate_formula cs assignment else false

/-- `verify_solution` from `backtrack_solver.py`: same loop as
`evaluate_formula` but with per-clause diagnostic printing (dropped in
the pure model). -/
def verify_solution : List Clause → Assignment → Bool
  | [], _ => true
  | c :: cs, assignment =>
    if is_satisfied c assignment then verify_solution cs assignment else false

/-- Code-point comparison of two character lists: models Python's
lexicographic string `<=` used by `sorted` in `get_all_variables`. -/
def chars_le : List Char → List Char → Bool
  | [], _ => true
  | _ :: _, [] => false
  | c :: cs, d :: ds =>
    if c.toNat < d.toNat then true
    else if d.toNat < c.toNat then false
    else chars_le cs ds

/-- Python string `<=` by code points, on the underlying characters. -/
def name_le (a b : String) : Bool := chars_le a.data b.data

/-- `get_all_variables` from `backtrack_solver.py`: collect the names of
all literals, deduplicate (the Python `set`), and sort by name. -/
def get_all_variables (clauses : List Clause) : List String :=
  List.insertionSort (fun a b => name_le a b = true)
    ((clauses.map (fun c => c.map (fun l => l.name))).flatten.dedup)

/-- `backtrack_all_solutions` from `backtrack_solver.py`, with the
mutable `assignment` threaded as state (first component of the result)
and the mutable `solutions` accumulator as the second component.
`assignment.append(var)` / `assignment.pop()` become `++ [var]` /
`dropLast`; `var_index` advancing over `variables` becomes recursion on
the remaining suffix of the variable list. -/
def backtrack_all_solutions (clauses : List Clause) :
    List String → Assignment → Assignment × List Assignment
  | [], assignment =>
    (assignment, if evaluate_formula clauses assignment then [assignment] else [])
  | v :: rest, assignment =>
    let a1 := assignment ++ [Variable.mk v true]
    let r1 := if clauses.any (fun c => is_falsified c a1) then (a1, ([] : List Assignment))
      else backtrack_all_solutions clauses rest a1
    let a2 := r1.1.dropLast ++ [-(Variable.mk v true)]
    let r2 := if clauses.any (fun c => is_falsified c a2) then (a2, ([] : List Assignment))
      else backtrack_all_solutions clauses rest a2
    (r2.1.dropLast, r1.2 ++ r2.2)

/-- `find_all_solutions_backtrack_no_timing` from `backtrack_solver.py`. -/
def find_all_solutions_backtrack_no_timing (clauses : List Clause) : List Assignment :=
  (backtrack_all_solutions clauses (get_all_variables clauses) []).2

/-- The two simplification steps at the top of the DPLL loop
(`dpll_solver.py`): drop satisfied clauses, then delete false literals
from the remaining clauses (`remove_false_literals`). -/
def remove_false_literals (clause : Clause) (assignment : Assignment) : Clause :=
  clause.filter (fun l => !(decide (-l ∈ assignment)))

/-- The clause set after one round of DPLL simplification. -/
def simplify_clauses (clauses : List Clause) (assignment : Assignment) : List Clause :=
  (clauses.filter (fun c => !(is_satisfied c assignment))).map
    (fun c => remove_false_literals c assignment)

/-- The `unit_clauses` comprehension of `dpll_solver.py`: the literal of
every clause of length exactly 1 that is not already assigned in either
polarity. -/
def unit_literals (clauses : List Clause) (assignment : Assignment) : List Variable :=
  clauses.filterMap (fun c =>
    match c with
    | [l] => if l ∉ assignment ∧ -l ∉ assignment then some l else none
    | _ => none)

/-- The conflict test of the unit-propagation loop of `dpll_solver.py`:
the loop returns (UNSAT) as soon as some collected unit literal's
negation is also among the collected unit literals. -/
def has_unit_conflict (units : List Variable) : Bool :=
  units.any (fun l => decide (-l ∈ units))

/-- `dpll_all_solutions` from `dpll_solver.py`.  The `while True` loop
is modelled by recursion on `fuel`; `continue` after unit propagation
and the two recursive branch calls all consume one unit of fuel.  The
branch literal is the first literal of the first non-empty clause
(the nested `for` loops).  The mutable `solutions` accumulator becomes
the returned list. -/
def dpll_all_solutions (fuel : Nat) (clauses : List Clause) (assignment : Assignment) :
    List Assignment :=
  match fuel with
  | 0 => []
  | fuel + 1 =>
    let cl := simplify_clauses clauses assignment
    if cl.isEmpty then [assignment]
    else if cl.any (fun c => c.isEmpty) then []
    else
      let units := unit_literals cl assignment
      if has_unit_conflict units then []
      else if !units.isEmpty then dpll_all_solutions fuel cl (assignment ++ units)
      else
        match cl.findSome? (fun c => c.head?) with
        | none => []
        | some lit =>
          dpll_all_solutions fuel cl (assignment ++ [lit]) ++
          dpll_all_solutions fuel cl (assignment ++ [-lit])

/-- `dpll_first_solution` from `dpll_solver.py`.  Identical loop; on the
branching step the source calls itself recursively on both polarities
but discards both results and falls through to a bare `return`, so the
branch case produces `none`. -/
def dpll_first_solution (fuel : Nat) (clauses : List Clause) (assignment : Assignment) :
    Option Assignment :=
  match fuel with
  | 0 => none
  | fuel + 1 =>
    let cl := simplify_clauses clauses assignment
    if cl.isEmpty then some assignment
    else if cl.any (fun c => c.isEmpty) then none
    else
      let units := unit_literals cl assignment
      if has_unit_conflict units then none
      else if !units.isEmpty then dpll_first_solution fuel cl (assignment ++ units)
      else
        match cl.findSome? (fun c => c.head?) with
        | none => none
        | some lit =>
          let _ := dpll_first_solution fuel cl (assignment ++ [lit])
          let _ := dpll_first_solution fuel cl (assignment ++ [-lit])
          none

/-- Fuel that the source's implicit termination argument shows is never
exhausted: one more than the number of variables of the formula. -/
def solver_fuel (clauses : List Clause) : Nat :=
  (get_all_variables clauses).length + 1

/-- `find_all_solutions` from `dpll_solver.py`. -/
def find_all_solutions (clauses : List Clause) : List Assignment :=
  dpll_all_solutions (solver_fuel clauses) clauses []

/-- `find_first_solution` from `dpll_solver.py`. -/
def find_first_solution (clauses : List Clause) : Option Assignment :=
  dpll_first_solution (solver_fuel clauses) clauses []

/-- Consistency of an assignment: no literal occurs together with its
negation (at most one polarity per variable name). -/
def consistent (a : Assignment) : Bool :=
  a.all (fun l => decide (-l ∉ a))

/-- Two assignments are equal as unordered literal sets. -/
def same_literal_set (a b : Assignment) : Bool :=
  a.all (fun l => decide (l ∈ b)) && b.all (fun l => decide (l ∈ a))

/-- Two solution lists are equal as unordered sets of literal-sets. -/
def same_solution_sets (A B : List Assignment) : Bool :=
  A.all (fun x => B.any (same_literal_set x)) && B.all (fun y => A.any (same_literal_set y))

example :
    find_all_solutions [[⟨"q", true⟩, ⟨"r", true⟩]] =
      [[⟨"q", true⟩], [⟨"q", false⟩, ⟨"r", true⟩]] := by decide

example :
    find_all_solutions_backtrack_no_timing [[⟨"q", true⟩, ⟨"r", true⟩]] =
      [[⟨"q", true⟩, ⟨"r", true⟩], [⟨"q", true⟩, ⟨"r", false⟩],
        [⟨"q", false⟩, ⟨"r", true⟩]] := by decide

example :
    same_solution_sets (find_all_solutions [[⟨"q", true⟩, ⟨"r", true⟩]])
      (find_all_solutions_backtrack_no_timing [[⟨"q", true⟩, ⟨"r", true⟩]]) = false := by
  decide

example : find_first_solution [[⟨"p", true⟩, ⟨"q", true⟩]] = none := by decide

example : is_falsified [] [] = true := by decide

example : find_first_solution [[⟨"p", true⟩], [⟨"p", false⟩]] = none := by decide

example : find_all_solutions [[⟨"p", true⟩], [⟨"p", false⟩]] = [] := by decide

example : find_all_solutions_backtrack_no_timing [[⟨"p", true⟩], [⟨"p", false⟩]] = [] := by
  decide

/-! ### Basic facts about the literal model and the clause primitives -/

theorem var_neg_def (l : Variable) : -l = ⟨l.name, !l.positive⟩ := rfl

theorem var_neg_neg (l : Variable) : -(-l) = l := by
  cases l with
  | mk n b => simp [var_neg_def]

theorem var_neg_name (l : Variable) : (-l).name = l.name := rfl

theorem var_neg_ne (l : Variable) : -l ≠ l := by
  cases l with
  | mk n b => simp [var_neg_def]

theorem is_satisfied_iff (c : Clause) (a : Assignment) :
    is_satisfied c a = true ↔ ∃ l ∈ c, l ∈ a := by
  simp [is_satisfied]

theorem is_falsified_iff (c : Clause) (a : Assignment) :
    is_falsified c a = true ↔ ∀ l ∈ c, -l ∈ a := by
  simp [is_falsified]

theorem evaluate_formula_iff (cs : List Clause) (a : Assignment) :
    evaluate_formula cs a = true ↔ ∀ c ∈ cs, is_satisfied c a = true := by
  induction cs with
  | nil => simp [evaluate_formula]
  | cons c cs ih =>
    by_cases h : is_satisfied c a = true
    · simp [evaluate_formula, h, ih]
    · simp [evaluate_formula, h]

theorem consistent_iff (a : Assignment) :
    consistent a = true ↔ ∀ l ∈ a, -l ∉ a := by
  simp [consistent]

theorem is_satisfied_mono {c : Clause} {a b : Assignment}
    (hab : ∀ l ∈ a, l ∈ b) (h : is_satisfied c a = true) : is_satisfied c b = true := by
  rcases (is_satisfied_iff c a).1 h with ⟨l, hlc, hla⟩
  exact (is_satisfied_iff c b).2 ⟨l, hlc, hab l hla⟩

theorem is_satisfied_of_sub {c c' : Clause} {a : Assignment}
    (hcc : ∀ l ∈ c', l ∈ c) (h : is_satisfied c' a = true) : is_satisfied c a = true := by
  rcases (is_satisfied_iff c' a).1 h with ⟨l, hlc, hla⟩
  exact (is_satisfied_iff c a).2 ⟨l, hcc l hlc, hla⟩

theorem mem_remove_false_literals {l : Variable} {c : Clause} {a : Assignment} :
    l ∈ remove_false_literals c a ↔ l ∈ c ∧ -l ∉ a := by
  simp [remove_false_literals]

theorem mem_simplify_clauses {c' : Clause} {clauses : List Clause} {a : Assignment} :
    c' ∈ simplify_clauses clauses a ↔
      ∃ c ∈ clauses, is_satisfied c a = false ∧ c' = remove_false_literals c a := by
  simp only [simplify_clauses, List.mem_map, List.mem_filter, Bool.not_eq_eq_eq_not,
    Bool.not_true]
  constructor
  · rintro ⟨c, ⟨hc, hsat⟩, rfl⟩
    exact ⟨c, hc, hsat, rfl⟩
  · rintro ⟨c, hc, hsat, rfl⟩
    exact ⟨c, ⟨hc, hsat⟩, rfl⟩

theorem simplify_clauses_eq_nil {clauses : List Clause} {a : Assignment}
    (h : simplify_clauses clauses a = []) :
    ∀ c ∈ clauses, is_satisfied c a = true := by
  intro c hc
  have hfil : clauses.filter (fun c => !(is_satisfied c a)) = [] := by
    have := congrArg List.length h
    simp only [simplify_clauses, List.length_map] at this
    exact List.length_eq_zero.1 this
  have := (List.filter_eq_nil_iff).1 hfil c hc
  simpa using this

theorem simplify_clauses_covers {c : Clause} {clauses : List Clause} {a : Assignment}
    (hc : c ∈ clauses) :
    is_satisfied c a = true ∨ remove_false_literals c a ∈ simplify_clauses clauses a := by
  by_cases h : is_satisfied c a = true
  · exact Or.inl h
  · refine Or.inr (mem_simplify_clauses.2 ⟨c, hc, ?_, rfl⟩)
    simpa using h

theorem mem_unit_literals {u : Variable} {clauses : List Clause} {a : Assignment} :
    u ∈ unit_literals clauses a ↔ [u] ∈ clauses ∧ u ∉ a ∧ -u ∉ a := by
  simp only [unit_literals, List.mem_filterMap]
  constructor
  · rintro ⟨c, hc, hf⟩
    match c with
    | [] => simp at hf
    | [l] =>
      by_cases h : l ∉ a ∧ -l ∉ a
      · simp only [if_pos h, Option.some.injEq] at hf
        subst hf
        exact ⟨hc, h⟩
      · simp [if_neg h] at hf
    | l₁ :: l₂ :: ls => simp at hf
  · rintro ⟨hc, h⟩
    exact ⟨[u], hc, by simp [if_pos h]⟩

/-! ### Structure of the backtracking enumerator -/

theorem backtrack_fst (clauses : List Clause) (vars : List String) (a : Assignment) :
    (backtrack_all_solutions clauses vars a).1 = a := by
  induction vars generalizing a with
  | nil => rfl
  | cons v rest ih =>
    simp only [backtrack_all_solutions]
    by_cases h1 : clauses.any (fun c => is_falsified c (a ++ [Variable.mk v true])) = true
    · rw [if_pos h1]
      by_cases h2 :
          clauses.any (fun c =>
            is_falsified c ((a ++ [Variable.mk v true]).dropLast ++ [-(Variable.mk v true)])) = true
      · rw [if_pos h2]
        simp [List.dropLast_concat]
      · rw [if_neg h2, ih]
        simp [List.dropLast_concat]
    · rw [if_neg h1, ih]
      by_cases h2 :
          clauses.any (fun c =>
            is_falsified c ((a ++ [Variable.mk v true]).dropLast ++ [-(Variable.mk v true)])) = true
      · rw [if_pos h2]
        simp [List.dropLast_concat]
      · rw [if_neg h2, ih]
        simp [List.dropLast_concat]

theorem backtrack_snd_cons (clauses : List Clause) (v : String) (rest : List String)
    (a : Assignment) :
    (backtrack_all_solutions clauses (v :: rest) a).2 =
      (if clauses.any (fun c => is_falsified c (a ++ [Variable.mk v true])) then []
        else (backtrack_all_solutions clauses rest (a ++ [Variable.mk v true])).2) ++
      (if clauses.any (fun c => is_falsified c (a ++ [Variable.mk v false])) then []
        else (backtrack_all_solutions clauses rest (a ++ [Variable.mk v false])).2) := by
  have hneg : -(Variable.mk v true) = Variable.mk v false := rfl
  by_cases h1 : clauses.any (fun c => is_falsified c (a ++ [Variable.mk v true])) = true <;>
  by_cases h2 : clauses.any (fun c => is_falsified c (a ++ [Variable.mk v false])) = true <;>
  simp [backtrack_all_solutions, hneg, backtrack_fst, List.dropLast_concat, h1, h2]

theorem backtrack_shape_aux (clauses : List Clause) :
    ∀ (vars : List String) (a : Assignment) (sol : Assignment),
      sol ∈ (backtrack_all_solutions clauses vars a).2 →
      ∃ ext : List Variable, sol = a ++ ext ∧ ext.map (fun l => l.name) = vars ∧
        evaluate_formula clauses sol = true := by
  intro vars
  induction vars with
  | nil =>
    intro a sol hsol
    by_cases h : evaluate_formula clauses a = true
    · simp only [backtrack_all_solutions, h, if_true, List.mem_singleton] at hsol
      subst hsol
      exact ⟨[], by simp, rfl, h⟩
    · simp [backtrack_all_solutions, h] at hsol
  | cons v rest ih =>
    intro a sol hsol
    rw [backtrack_snd_cons] at hsol
    rcases List.mem_append.1 hsol with h | h
    · by_cases hp : clauses.any (fun c => is_falsified c (a ++ [Variable.mk v true])) = true
      · simp [hp] at h
      · rw [if_neg hp] at h
        rcases ih (a ++ [Variable.mk v true]) sol h with ⟨ext, hsol', hnames, heval⟩
        exact ⟨Variable.mk v true :: ext, by simp [hsol'], by simp [hnames], heval⟩
    · by_cases hp : clauses.any (fun c => is_falsified c (a ++ [Variable.mk v false])) = true
      · simp [hp] at h
      · rw [if_neg hp] at h
        rcases ih (a ++ [Variable.mk v false]) sol h with ⟨ext, hsol', hnames, heval⟩
        exact ⟨Variable.mk v false :: ext, by simp [hsol'], by simp [hnames], heval⟩

theorem backtrack_complete_aux (clauses : List Clause) :
    ∀ (ext : List Variable) (a : Assignment),
      evaluate_formula clauses (a ++ ext) = true →
      (∀ l ∈ a ++ ext, -l ∉ a ++ ext) →
      (a ++ ext) ∈ (backtrack_all_solutions clauses (ext.map (fun l => l.name)) a).2 := by
  intro ext
  induction ext with
  | nil =>
    intro a heval _
    rw [List.append_nil] at heval ⊢
    simp [backtrack_all_solutions, heval]
  | cons l ext ih =>
    intro a heval hcons
    have hsub : ∀ x ∈ a ++ [l], x ∈ a ++ l :: ext := by
      intro x hx
      rcases List.mem_append.1 hx with hx | hx
      · exact List.mem_append.2 (Or.inl hx)
      · rw [List.mem_singleton] at hx
        subst hx
        exact List.mem_append.2 (Or.inr (List.mem_cons_self _ _))
    have hprune : (clauses.any fun c => is_falsified c (a ++ [l])) = false := by
      by_contra hne
      have hany : (clauses.any fun c => is_falsified c (a ++ [l])) = true := by
        cases hb : clauses.any fun c => is_falsified c (a ++ [l])
        · exact absurd hb hne
        · rfl
      rcases List.any_eq_true.1 hany with ⟨c, hc, hf⟩
      have hsat : is_satisfied c (a ++ l :: ext) = true :=
        (evaluate_formula_iff clauses (a ++ l :: ext)).1 heval c hc
      rcases (is_satisfied_iff c (a ++ l :: ext)).1 hsat with ⟨m, hmc, hmA⟩
      have hneg : -m ∈ a ++ [l] := (is_falsified_iff c (a ++ [l])).1 hf m hmc
      exact hcons m hmA (hsub _ hneg)
    have hassoc : (a ++ [l]) ++ ext = a ++ l :: ext := by simp
    cases l with
    | mk n b =>
      cases b
      · rw [List.map_cons, backtrack_snd_cons]
        refine List.mem_append.2 (Or.inr ?_)
        have : Variable.mk n false = Variable.mk (Variable.mk n false).name false := rfl
        rw [if_neg (by rw [hprune]; simp)]
        have := ih (a ++ [Variable.mk n false]) (by rw [hassoc]; exact heval)
          (by rw [hassoc]; exact hcons)
        rw [hassoc] at this
        exact this
      · rw [List.map_cons, backtrack_snd_cons]
        refine List.mem_append.2 (Or.inl ?_)
        rw [if_neg (by rw [hprune]; simp)]
        have := ih (a ++ [Variable.mk n true]) (by rw [hassoc]; exact heval)
          (by rw [hassoc]; exact hcons)
        rw [hassoc] at this
        exact this

theorem backtrack_consistent_aux (clauses : List Clause) :
    ∀ (vars : List String) (a : Assignment),
      (∀ l ∈ a, -l ∉ a) →
      (∀ v ∈ vars, Variable.mk v true ∉ a ∧ Variable.mk v false ∉ a) →
      vars.Nodup →
      ∀ sol ∈ (backtrack_all_solutions clauses vars a).2, ∀ l ∈ sol, -l ∉ sol := by
  intro vars
  induction vars with
  | nil =>
    intro a hcons _ _ sol hsol
    by_cases h : evaluate_formula clauses a = true
    · simp only [backtrack_all_solutions, h, if_true, List.mem_singleton] at hsol
      subst hsol
      exact hcons
    · simp [backtrack_all_solutions, h] at hsol
  | cons v rest ih =>
    intro a hcons hfresh hnodup sol hsol
    have hvfresh := hfresh v (List.mem_cons_self _ _)
    have hrest : ∀ v' ∈ rest, v' ≠ v := by
      intro v' hv' heq
      subst heq
      exact (List.nodup_cons.1 hnodup).1 hv'
    have hnodup' : rest.Nodup := (List.nodup_cons.1 hnodup).2
    have hstep : ∀ b : Bool,
        (∀ l ∈ a ++ [Variable.mk v b], -l ∉ a ++ [Variable.mk v b]) ∧
        (∀ v' ∈ rest, Variable.mk v' true ∉ a ++ [Variable.mk v b] ∧
          Variable.mk v' false ∉ a ++ [Variable.mk v b]) := by
      intro b
      constructor
      · intro l hl hnegl
        rcases List.mem_append.1 hl with hl | hl
        · rcases List.mem_append.1 hnegl with hnegl | hnegl
          · exact hcons l hl hnegl
          · rw [List.mem_singleton] at hnegl
            have : l = -(Variable.mk v b) := by
              rw [← hnegl, var_neg_neg]
            subst this
            cases b
            · exact hvfresh.1 (by simpa [var_neg_def] using hl)
            · exact hvfresh.2 (by simpa [var_neg_def] using hl)
        · rw [List.mem_singleton] at hl
          subst hl
          rcases List.mem_append.1 hnegl with hnegl | hnegl
          · cases b
            · exact hvfresh.1 (by simpa [var_neg_def] using hnegl)
            · exact hvfresh.2 (by simpa [var_neg_def] using hnegl)
          · rw [List.mem_singleton] at hnegl
            exact var_neg_ne _ hnegl
      · intro v' hv'
        have hne : v' ≠ v := hrest v' hv'
        constructor
        · intro hmem
          rcases List.mem_append.1 hmem with hmem | hmem
          · exact (hfresh v' (List.mem_cons_of_mem _ hv')).1 hmem
          · rw [List.mem_singleton] at hmem
            exact hne (congrArg Variable.name hmem)
        · intro hmem
          rcases List.mem_append.1 hmem with hmem | hmem
          · exact (hfresh v' (List.mem_cons_of_mem _ hv')).2 hmem
          · rw [List.mem_singleton] at hmem
            exact hne (congrArg Variable.name hmem)
    rw [backtrack_snd_cons] at hsol
    rcases List.mem_append.1 hsol with h | h
    · by_cases hp : clauses.any (fun c => is_falsified c (a ++ [Variable.mk v true])) = true
      · simp [hp] at h
      · rw [if_neg hp] at h
        exact ih (a ++ [Variable.mk v true]) (hstep true).1 (hstep true).2 hnodup' sol h
    · by_cases hp : clauses.any (fun c => is_falsified c (a ++ [Variable.mk v false])) = true
      · simp [hp] at h
      · rw [if_neg hp] at h
        exact ih (a ++ [Variable.mk v false]) (hstep false).1 (hstep false).2 hnodup' sol h

/-! ### One-step unfolding equations for the DPLL loop -/

theorem dpll_all_of_sat {clauses : List Clause} {a : Assignment}
    (h : simplify_clauses clauses a = []) (fuel : Nat) :
    dpll_all_solutions (fuel + 1) clauses a = [a] := by
  simp [dpll_all_solutions, h]

theorem dpll_all_of_empty {clauses : List Clause} {a : Assignment}
    (hne : simplify_clauses clauses a ≠ [])
    (hemp : ((simplify_clauses clauses a).any fun c => c.isEmpty) = true) (fuel : Nat) :
    dpll_all_solutions (fuel + 1) clauses a = [] := by
  simp [dpll_all_solutions, List.isEmpty_eq_false.2 hne, hemp]

theorem dpll_all_of_conflict {clauses : List Clause} {a : Assignment}
    (hne : simplify_clauses clauses a ≠ [])
    (hemp : ((simplify_clauses clauses a).any fun c => c.isEmpty) = false)
    (hconf : has_unit_conflict (unit_literals (simplify_clauses clauses a) a) = true)
    (fuel : Nat) :
    dpll_all_solutions (fuel + 1) clauses a = [] := by
  simp [dpll_all_solutions, List.isEmpty_eq_false.2 hne, hemp, hconf]

theorem dpll_all_of_units {clauses : List Clause} {a : Assignment}
    (hne : simplify_clauses clauses a ≠ [])
    (hemp : ((simplify_clauses clauses a).any fun c => c.isEmpty) = false)
    (hconf : has_unit_conflict (unit_literals (simplify_clauses clauses a) a) = false)
    (hU : unit_literals (simplify_clauses clauses a) a ≠ []) (fuel : Nat) :
    dpll_all_solutions (fuel + 1) clauses a =
      dpll_all_solutions fuel (simplify_clauses clauses a)
        (a ++ unit_literals (simplify_clauses clauses a) a) := by
  simp [dpll_all_solutions, List.isEmpty_eq_false.2 hne, hemp, hconf,
    List.isEmpty_eq_false.2 hU]

theorem dpll_all_of_branch {clauses : List Clause} {a : Assignment} {lit : Variable}
    (hne : simplify_clauses clauses a ≠ [])
    (hemp : ((simplify_clauses clauses a).any fun c => c.isEmpty) = false)
    (hconf : has_unit_conflict (unit_literals (simplify_clauses clauses a) a) = false)
    (hU : unit_literals (simplify_clauses clauses a) a = [])
    (hfs : (simplify_clauses clauses a).findSome? (fun c => c.head?) = some lit)
    (fuel : Nat) :
    dpll_all_solutions (fuel + 1) clauses a =
      dpll_all_solutions fuel (simplify_clauses clauses a) (a ++ [lit]) ++
      dpll_all_solutions fuel (simplify_clauses clauses a) (a ++ [-lit]) := by
  simp [dpll_all_solutions, has_unit_conflict, List.isEmpty_eq_false.2 hne, hemp, hU, hfs]

theorem dpll_first_of_sat {clauses : List Clause} {a : Assignment}
    (h : simplify_clauses clauses a = []) (fuel : Nat) :
    dpll_first_solution (fuel + 1) clauses a = some a := by
  simp [dpll_first_solution, h]

theorem dpll_first_of_empty {clauses : List Clause} {a : Assignment}
    (hne : simplify_clauses clauses a ≠ [])
    (hemp : ((simplify_clauses clauses a).any fun c => c.isEmpty) = true) (fuel : Nat) :
    dpll_first_solution (fuel + 1) clauses a = none := by
  simp [dpll_first_solution, List.isEmpty_eq_false.2 hne, hemp]

theorem dpll_first_of_conflict {clauses : List Clause} {a : Assignment}
    (hne : simplify_clauses clauses a ≠ [])
    (hemp : ((simplify_clauses clauses a).any fun c => c.isEmpty) = false)
    (hconf : has_unit_conflict (unit_literals (simplify_clauses clauses a) a) = true)
    (fuel : Nat) :
    dpll_first_solution (fuel + 1) clauses a = none := by
  simp [dpll_first_solution, List.isEmpty_eq_false.2 hne, hemp, hconf]

theorem dpll_first_of_units {clauses : List Clause} {a : Assignment}
    (hne : simplify_clauses clauses a ≠ [])
    (hemp : ((simplify_clauses clauses a).any fun c => c.isEmpty) = false)
    (hconf : has_unit_conflict (unit_literals (simplify_clauses clauses a) a) = false)
    (hU : unit_literals (simplify_clauses clauses a) a ≠ []) (fuel : Nat) :
    dpll_first_solution (fuel + 1) clauses a =
      dpll_first_solution fuel (simplify_clauses clauses a)
        (a ++ unit_literals (simplify_clauses clauses a) a) := by
  simp [dpll_first_solution, List.isEmpty_eq_false.2 hne, hemp, hconf,
    List.isEmpty_eq_false.2 hU]

theorem dpll_first_of_branch {clauses : List Clause} {a : Assignment} {lit : Variable}
    (hne : simplify_clauses clauses a ≠ [])
    (hemp : ((simplify_clauses clauses a).any fun c => c.isEmpty) = false)
    (hconf : has_unit_conflict (unit_literals (simplify_clauses clauses a) a) = false)
    (hU : unit_literals (simplify_clauses clauses a) a = [])
    (hfs : (simplify_clauses clauses a).findSome? (fun c => c.head?) = some lit)
    (fuel : Nat) :
    dpll_first_solution (fuel + 1) clauses a = none := by
  simp [dpll_first_solution, List.isEmpty_eq_false.2 hne, hemp, hconf, hU, hfs]

theorem dpll_first_of_no_branch {clauses : List Clause} {a : Assignment}
    (hne : simplify_clauses clauses a ≠ [])
    (hemp : ((simplify_clauses clauses a).any fun c => c.isEmpty) = false)
    (hconf : has_unit_conflict (unit_literals (simplify_clauses clauses a) a) = false)
    (hU : unit_literals (simplify_clauses clauses a) a = [])
    (hfs : (simplify_clauses clauses a).findSome? (fun c => c.head?) = none)
    (fuel : Nat) :
    dpll_first_solution (fuel + 1) clauses a = none := by
  simp [dpll_first_solution, List.isEmpty_eq_false.2 hne, hemp, hconf, hU, hfs]

theorem dpll_all_of_no_branch {clauses : List Clause} {a : Assignment}
    (hne : simplify_clauses clauses a ≠ [])
    (hemp : ((simplify_clauses clauses a).any fun c => c.isEmpty) = false)
    (hU : unit_literals (simplify_clauses clauses a) a = [])
    (hfs : (simplify_clauses clauses a).findSome? (fun c => c.head?) = none)
    (fuel : Nat) :
    dpll_all_solutions (fuel + 1) clauses a = [] := by
  simp [dpll_all_solutions, has_unit_conflict, List.isEmpty_eq_false.2 hne, hemp, hU, hfs]

theorem bool_eq_false {b : Bool} (h : ¬b = true) : b = false := by
  cases b
  · rfl
  · exact absurd rfl h

/-! ### Case analysis for membership in a DPLL result -/

theorem dpll_all_step_cases {fuel : Nat} {clauses : List Clause} {a sol : Assignment}
    (h : sol ∈ dpll_all_solutions (fuel + 1) clauses a) :
    (simplify_clauses clauses a = [] ∧ sol = a) ∨
    (unit_literals (simplify_clauses clauses a) a ≠ [] ∧
      has_unit_conflict (unit_literals (simplify_clauses clauses a) a) = false ∧
      sol ∈ dpll_all_solutions fuel (simplify_clauses clauses a)
        (a ++ unit_literals (simplify_clauses clauses a) a)) ∨
    (∃ lit, (simplify_clauses clauses a).findSome? (fun c => c.head?) = some lit ∧
      (sol ∈ dpll_all_solutions fuel (simplify_clauses clauses a) (a ++ [lit]) ∨
        sol ∈ dpll_all_solutions fuel (simplify_clauses clauses a) (a ++ [-lit]))) := by
  by_cases h1 : simplify_clauses clauses a = []
  · rw [dpll_all_of_sat h1] at h
    rw [List.mem_singleton] at h
    exact Or.inl ⟨h1, h⟩
  · by_cases h2 : ((simplify_clauses clauses a).any fun c => c.isEmpty) = true
    · rw [dpll_all_of_empty h1 h2] at h
      exact absurd h (List.not_mem_nil _)
    · have h2' := bool_eq_false h2
      by_cases h3 : has_unit_conflict (unit_literals (simplify_clauses clauses a) a) = true
      · rw [dpll_all_of_conflict h1 h2' h3] at h
        exact absurd h (List.not_mem_nil _)
      · have h3' := bool_eq_false h3
        by_cases h4 : unit_literals (simplify_clauses clauses a) a = []
        · cases hfs : (simplify_clauses clauses a).findSome? (fun c => c.head?) with
          | none =>
            rw [dpll_all_of_no_branch h1 h2' h4 hfs] at h
            exact absurd h (List.not_mem_nil _)
          | some lit =>
            rw [dpll_all_of_branch h1 h2' h3' h4 hfs] at h
            exact Or.inr (Or.inr ⟨lit, rfl, List.mem_append.1 h⟩)
        · rw [dpll_all_of_units h1 h2' h3' h4] at h
          exact Or.inr (Or.inl ⟨h4, h3', h⟩)

theorem dpll_first_step_cases {fuel : Nat} {clauses : List Clause} {a sol : Assignment}
    (h : dpll_first_solution (fuel + 1) clauses a = some sol) :
    (simplify_clauses clauses a = [] ∧ sol = a) ∨
    (unit_literals (simplify_clauses clauses a) a ≠ [] ∧
      has_unit_conflict (unit_literals (simplify_clauses clauses a) a) = false ∧
      dpll_first_solution fuel (simplify_clauses clauses a)
        (a ++ unit_literals (simplify_clauses clauses a) a) = some sol) := by
  by_cases h1 : simplify_clauses clauses a = []
  · rw [dpll_first_of_sat h1] at h
    exact Or.inl ⟨h1, (Option.some.injEq _ _ ▸ h).symm⟩
  · by_cases h2 : ((simplify_clauses clauses a).any fun c => c.isEmpty) = true
    · rw [dpll_first_of_empty h1 h2] at h
      exact absurd h (by simp)
    · have h2' := bool_eq_false h2
      by_cases h3 : has_unit_conflict (unit_literals (simplify_clauses clauses a) a) = true
      · rw [dpll_first_of_conflict h1 h2' h3] at h
        exact absurd h (by simp)
      · have h3' := bool_eq_false h3
        by_cases h4 : unit_literals (simplify_clauses clauses a) a = []
        · cases hfs : (simplify_clauses clauses a).findSome? (fun c => c.head?) with
          | none =>
            rw [dpll_first_of_no_branch h1 h2' h3' h4 hfs] at h
            exact absurd h (by simp)
          | some lit =>
            rw [dpll_first_of_branch h1 h2' h3' h4 hfs] at h
            exact absurd h (by simp)
        · rw [dpll_first_of_units h1 h2' h3' h4] at h
          exact Or.inr ⟨h4, h3', h⟩

/-! ### Soundness of the DPLL engine -/

theorem sat_transfer {clauses : List Clause} {a ext sol : Assignment}
    (h1 : ∀ l ∈ a ++ ext, l ∈ sol)
    (h2 : ∀ c' ∈ simplify_clauses clauses a, is_satisfied c' sol = true) :
    (∀ l ∈ a, l ∈ sol) ∧ ∀ c ∈ clauses, is_satisfied c sol = true := by
  have ha : ∀ l ∈ a, l ∈ sol := fun l hl => h1 l (List.mem_append.2 (Or.inl hl))
  refine ⟨ha, ?_⟩
  intro c hc
  rcases simplify_clauses_covers (a := a) hc with hs | hs
  · exact is_satisfied_mono ha hs
  · exact is_satisfied_of_sub (fun l hl => (mem_remove_false_literals.1 hl).1) (h2 _ hs)

theorem dpll_all_sound_aux :
    ∀ (fuel : Nat) (clauses : List Clause) (a sol : Assignment),
      sol ∈ dpll_all_solutions fuel clauses a →
      (∀ l ∈ a, l ∈ sol) ∧ ∀ c ∈ clauses, is_satisfied c sol = true := by
  intro fuel
  induction fuel with
  | zero =>
    intro clauses a sol h
    simp [dpll_all_solutions] at h
  | succ fuel ih =>
    intro clauses a sol h
    rcases dpll_all_step_cases h with ⟨h1, rfl⟩ | ⟨_, _, hmem⟩ | ⟨lit, _, hmem | hmem⟩
    · exact ⟨fun l hl => hl, fun c hc => simplify_clauses_eq_nil h1 c hc⟩
    · obtain ⟨ih1, ih2⟩ := ih _ _ _ hmem
      exact sat_transfer ih1 ih2
    · obtain ⟨ih1, ih2⟩ := ih _ _ _ hmem
      exact sat_transfer ih1 ih2
    · obtain ⟨ih1, ih2⟩ := ih _ _ _ hmem
      exact sat_transfer ih1 ih2

theorem dpll_first_sound_aux :
    ∀ (fuel : Nat) (clauses : List Clause) (a sol : Assignment),
      dpll_first_solution fuel clauses a = some sol →
      (∀ l ∈ a, l ∈ sol) ∧ ∀ c ∈ clauses, is_satisfied c sol = true := by
  intro fuel
  induction fuel with
  | zero =>
    intro clauses a sol h
    simp [dpll_first_solution] at h
  | succ fuel ih =>
    intro clauses a sol h
    rcases dpll_first_step_cases h with ⟨h1, rfl⟩ | ⟨_, _, hmem⟩
    · exact ⟨fun l hl => hl, fun c hc => simplify_clauses_eq_nil h1 c hc⟩
    · obtain ⟨ih1, ih2⟩ := ih _ _ _ hmem
      exact sat_transfer ih1 ih2

/-! ### Consistency is preserved by the DPLL engine -/

theorem extend_consistent {a : Assignment} {x : Variable}
    (hcons : ∀ l ∈ a, -l ∉ a) (hx : x ∉ a) (hnx : -x ∉ a) :
    ∀ l ∈ a ++ [x], -l ∉ a ++ [x] := by
  intro l hl hneg
  rcases List.mem_append.1 hl with hl | hl
  · rcases List.mem_append.1 hneg with hneg | hneg
    · exact hcons l hl hneg
    · rw [List.mem_singleton] at hneg
      have : l = -x := by rw [← hneg, var_neg_neg]
      subst this
      exact hnx hl
  · rw [List.mem_singleton] at hl
    subst hl
    rcases List.mem_append.1 hneg with hneg | hneg
    · exact hnx hneg
    · rw [List.mem_singleton] at hneg
      exact var_neg_ne _ hneg

theorem units_extend_consistent {cl : List Clause} {a : Assignment}
    (hcons : ∀ l ∈ a, -l ∉ a)
    (hconf : has_unit_conflict (unit_literals cl a) = false) :
    ∀ l ∈ a ++ unit_literals cl a, -l ∉ a ++ unit_literals cl a := by
  have hnc : ∀ u ∈ unit_literals cl a, -u ∉ unit_literals cl a := by
    intro u hu hmem
    have : has_unit_conflict (unit_literals cl a) = true :=
      List.any_eq_true.2 ⟨u, hu, by simpa using hmem⟩
    rw [hconf] at this
    cases this
  intro l hl hneg
  rcases List.mem_append.1 hl with hl | hl <;> rcases List.mem_append.1 hneg with hneg | hneg
  · exact hcons l hl hneg
  · have := (mem_unit_literals.1 hneg).2.2
    rw [var_neg_neg] at this
    exact this hl
  · exact (mem_unit_literals.1 hl).2.2 hneg
  · exact hnc l hl hneg

theorem branch_literal_spec {clauses : List Clause} {a : Assignment} {lit : Variable}
    (hfs : (simplify_clauses clauses a).findSome? (fun c => c.head?) = some lit) :
    ∃ c' ∈ simplify_clauses clauses a, lit ∈ c' := by
  rcases List.exists_of_findSome?_eq_some hfs with ⟨c', hc', hh⟩
  rcases List.head?_eq_some_iff.1 hh with ⟨ys, rfl⟩
  exact ⟨_, hc', List.mem_cons_self _ _⟩

theorem mem_simplify_unassigned {clauses : List Clause} {a : Assignment} {c' : Clause}
    {l : Variable} (hc' : c' ∈ simplify_clauses clauses a) (hl : l ∈ c') :
    l ∉ a ∧ -l ∉ a := by
  rcases mem_simplify_clauses.1 hc' with ⟨c, _, hsat, rfl⟩
  rcases mem_remove_false_literals.1 hl with ⟨hlc, hnla⟩
  refine ⟨?_, hnla⟩
  intro hla
  have : is_satisfied c a = true := (is_satisfied_iff c a).2 ⟨l, hlc, hla⟩
  rw [hsat] at this
  cases this

theorem dpll_all_consistent_aux :
    ∀ (fuel : Nat) (clauses : List Clause) (a : Assignment),
      (∀ l ∈ a, -l ∉ a) →
      ∀ sol ∈ dpll_all_solutions fuel clauses a, ∀ l ∈ sol, -l ∉ sol := by
  intro fuel
  induction fuel with
  | zero =>
    intro clauses a _ sol h
    simp [dpll_all_solutions] at h
  | succ fuel ih =>
    intro clauses a hcons sol h
    rcases dpll_all_step_cases h with ⟨_, rfl⟩ | ⟨_, hconf, hmem⟩ | ⟨lit, hfs, hmem | hmem⟩
    · exact hcons
    · exact ih _ _ (units_extend_consistent hcons hconf) sol hmem
    · rcases branch_literal_spec hfs with ⟨c', hc', hlit⟩
      rcases mem_simplify_unassigned hc' hlit with ⟨hla, hnla⟩
      exact ih _ _ (extend_consistent hcons hla hnla) sol hmem
    · rcases branch_literal_spec hfs with ⟨c', hc', hlit⟩
      rcases mem_simplify_unassigned hc' hlit with ⟨hla, hnla⟩
      have hla' : -(-lit) ∉ a := by rw [var_neg_neg]; exact hla
      exact ih _ _ (extend_consistent hcons hnla hla') sol hmem

theorem dpll_first_consistent_aux :
    ∀ (fuel : Nat) (clauses : List Clause) (a sol : Assignment),
      (∀ l ∈ a, -l ∉ a) →
      dpll_first_solution fuel clauses a = some sol → ∀ l ∈ sol, -l ∉ sol := by
  intro fuel
  induction fuel with
  | zero =>
    intro clauses a sol _ h
    simp [dpll_first_solution] at h
  | succ fuel ih =>
    intro clauses a sol hcons h
    rcases dpll_first_step_cases h with ⟨_, rfl⟩ | ⟨_, hconf, hmem⟩
    · exact hcons
    · exact ih _ _ _ (units_extend_consistent hcons hconf) hmem

/-! ### Names occurring in DPLL solutions come from the formula -/

theorem simplify_names {clauses : List Clause} {a : Assignment} {c' : Clause} {m : Variable}
    (hc' : c' ∈ simplify_clauses clauses a) (hm : m ∈ c') : ∃ c ∈ clauses, m ∈ c := by
  rcases mem_simplify_clauses.1 hc' with ⟨c, hc, _, rfl⟩
  exact ⟨c, hc, (mem_remove_false_literals.1 hm).1⟩

theorem dpll_names_aux :
    ∀ (fuel : Nat) (clauses : List Clause) (a sol : Assignment),
      sol ∈ dpll_all_solutions fuel clauses a →
      ∀ l ∈ sol, (∃ m ∈ a, m.name = l.name) ∨ ∃ c ∈ clauses, ∃ m ∈ c, m.name = l.name := by
  intro fuel
  induction fuel with
  | zero =>
    intro clauses a sol h
    simp [dpll_all_solutions] at h
  | succ fuel ih =>
    intro clauses a sol h
    rcases dpll_all_step_cases h with ⟨_, rfl⟩ | ⟨_, _, hmem⟩ | ⟨lit, hfs, hmem | hmem⟩
    · exact fun l hl => Or.inl ⟨l, hl, rfl⟩
    · intro l hl
      rcases ih _ _ _ hmem l hl with ⟨m, hm, hname⟩ | ⟨c', hc', m, hm, hname⟩
      · rcases List.mem_append.1 hm with hm | hm
        · exact Or.inl ⟨m, hm, hname⟩
        · rcases mem_unit_literals.1 hm with ⟨hmc, _, _⟩
          exact Or.inr (by
            rcases simplify_names hmc (List.mem_singleton.2 rfl) with ⟨c, hc, hmc'⟩
            exact ⟨c, hc, m, hmc', hname⟩)
      · rcases simplify_names hc' hm with ⟨c, hc, hm'⟩
        exact Or.inr ⟨c, hc, m, hm', hname⟩
    · intro l hl
      rcases ih _ _ _ hmem l hl with ⟨m, hm, hname⟩ | ⟨c', hc', m, hm, hname⟩
      · rcases List.mem_append.1 hm with hm | hm
        · exact Or.inl ⟨m, hm, hname⟩
        · rw [List.mem_singleton] at hm
          subst hm
          rcases branch_literal_spec hfs with ⟨c', hc', hlit⟩
          rcases simplify_names hc' hlit with ⟨c, hc, hm'⟩
          exact Or.inr ⟨c, hc, m, hm', hname⟩
      · rcases simplify_names hc' hm with ⟨c, hc, hm'⟩
        exact Or.inr ⟨c, hc, m, hm', hname⟩
    · intro l hl
      rcases ih _ _ _ hmem l hl with ⟨m, hm, hname⟩ | ⟨c', hc', m, hm, hname⟩
      · rcases List.mem_append.1 hm with hm | hm
        · exact Or.inl ⟨m, hm, hname⟩
        · rw [List.mem_singleton] at hm
          subst hm
          rcases branch_literal_spec hfs with ⟨c', hc', hlit⟩
          rcases simplify_names hc' hlit with ⟨c, hc, hm'⟩
          refine Or.inr ⟨c, hc, lit, hm', ?_⟩
          rw [← hname, var_neg_name]
      · rcases simplify_names hc' hm with ⟨c, hc, hm'⟩
        exact Or.inr ⟨c, hc, m, hm', hname⟩

/-! ### Completeness of the DPLL engine relative to a total satisfying
assignment -/

theorem filter_length_lt {α : Type} {p q : α → Bool} :
    ∀ {l : List α}, (∀ x ∈ l, q x = true → p x = true) →
      ∀ {x : α}, x ∈ l → p x = true → q x = false →
      (l.filter q).length < (l.filter p).length := by
  intro l
  induction l with
  | nil =>
    intro _ x hx
    cases hx
  | cons y ys ih =>
    intro himp x hx hpx hqx
    have hle : (ys.filter q).length ≤ (ys.filter p).length := by
      rw [← List.countP_eq_length_filter, ← List.countP_eq_length_filter]
      exact List.countP_mono_left (fun z hz h => himp z (List.mem_cons_of_mem _ hz) h)
    rcases List.mem_cons.1 hx with rfl | hx'
    · rw [List.filter_cons, List.filter_cons, hqx, hpx]
      simp only [if_false, if_true, List.length_cons, Bool.false_eq_true]
      exact Nat.lt_succ_of_le hle
    · have ihlt := ih (fun z hz h => himp z (List.mem_cons_of_mem _ hz) h) hx' hpx hqx
      rw [List.filter_cons, List.filter_cons]
      by_cases hq : q y = true
      · rw [hq, himp y (List.mem_cons_self _ _) hq]
        simpa using Nat.succ_lt_succ ihlt
      · rw [bool_eq_false hq]
        by_cases hp : p y = true
        · rw [hp]
          simpa using Nat.lt_succ_of_lt ihlt
        · rw [bool_eq_false hp]
          simpa using ihlt

theorem measure_decrease {σ a ext : Assignment} {x : Variable}
    (hx_ext : x ∈ ext) (hxσ : x ∈ σ) (hxa : x ∉ a) :
    (σ.filter (fun l => !(decide (l ∈ a ++ ext)))).length <
      (σ.filter (fun l => !(decide (l ∈ a)))).length := by
  refine filter_length_lt ?_ hxσ ?_ ?_
  · intro y _ hy
    simp only [Bool.not_eq_true', decide_eq_false_iff_not, List.mem_append] at hy ⊢
    exact fun hya => hy (Or.inl hya)
  · simp [hxa]
  · simp [List.mem_append, hx_ext]

theorem eq_or_neg_of_name_eq {m lit : Variable} (h : m.name = lit.name) :
    m = lit ∨ m = -lit := by
  cases m with
  | mk n b =>
    cases lit with
    | mk n' b' =>
      simp only [Variable.mk.injEq] at h ⊢
      simp only [var_neg_def]
      subst h
      cases b <;> cases b' <;> simp

theorem findSome_head_of_ne_nil {cl : List Clause}
    (hne : cl ≠ []) (hemp : (cl.any fun c => c.isEmpty) = false) :
    ∃ lit, cl.findSome? (fun c => c.head?) = some lit := by
  cases cl with
  | nil => exact absurd rfl hne
  | cons c0 rest =>
    have hc0ne : c0.isEmpty = false :=
      bool_eq_false (List.any_eq_false.1 hemp c0 (List.mem_cons_self _ _))
    cases c0 with
    | nil => simp at hc0ne
    | cons lit0 tail => exact ⟨lit0, by simp [List.findSome?_cons]⟩

theorem dpll_complete_aux :
    ∀ (fuel : Nat) (clauses : List Clause) (a σ : Assignment),
      (∀ l ∈ σ, -l ∉ σ) →
      (∀ l ∈ a, l ∈ σ) →
      (∀ c ∈ clauses, is_satisfied c σ = true) →
      (∀ c ∈ clauses, ∀ l ∈ c, ∃ m ∈ σ, m.name = l.name) →
      (σ.filter (fun l => !(decide (l ∈ a)))).length < fuel →
      ∃ sol ∈ dpll_all_solutions fuel clauses a, ∀ l ∈ sol, l ∈ σ := by
  intro fuel
  induction fuel with
  | zero =>
    intro clauses a σ _ _ _ _ hmeas
    exact absurd hmeas (Nat.not_lt_zero _)
  | succ fuel ih =>
    intro clauses a σ hσcons ha hsat htot hmeas
    by_cases hcl : simplify_clauses clauses a = []
    · refine ⟨a, ?_, ha⟩
      rw [dpll_all_of_sat hcl]
      exact List.mem_singleton.2 rfl
    · have hsat' : ∀ c' ∈ simplify_clauses clauses a, is_satisfied c' σ = true := by
        intro c' hc'
        rcases mem_simplify_clauses.1 hc' with ⟨c, hc, _, rfl⟩
        rcases (is_satisfied_iff c σ).1 (hsat c hc) with ⟨m, hmc, hmσ⟩
        refine (is_satisfied_iff _ σ).2 ⟨m, ?_, hmσ⟩
        refine mem_remove_false_literals.2 ⟨hmc, ?_⟩
        intro hma
        exact hσcons m hmσ (ha _ hma)
      have htot' : ∀ c' ∈ simplify_clauses clauses a, ∀ l ∈ c',
          ∃ m ∈ σ, m.name = l.name := by
        intro c' hc' l hl
        rcases simplify_names hc' hl with ⟨c, hc, hlc⟩
        exact htot c hc l hlc
      have hemp : ((simplify_clauses clauses a).any fun c => c.isEmpty) = false := by
        apply bool_eq_false
        intro hany
        rcases List.any_eq_true.1 hany with ⟨c', hc', he⟩
        have hc'nil : c' = [] := List.isEmpty_eq_true.1 he
        subst hc'nil
        rcases (is_satisfied_iff _ σ).1 (hsat' _ hc') with ⟨l, hl, _⟩
        cases hl
      have hu_mem : ∀ u ∈ unit_literals (simplify_clauses clauses a) a, u ∈ σ := by
        intro u hu
        rcases mem_unit_literals.1 hu with ⟨hcu, _, _⟩
        rcases (is_satisfied_iff _ σ).1 (hsat' _ hcu) with ⟨l, hl, hlσ⟩
        rw [List.mem_singleton] at hl
        subst hl
        exact hlσ
      have hconf : has_unit_conflict (unit_literals (simplify_clauses clauses a) a) = false := by
        apply bool_eq_false
        intro hc
        rcases List.any_eq_true.1 hc with ⟨u, hu, hdec⟩
        exact hσcons u (hu_mem u hu) (hu_mem _ (of_decide_eq_true hdec))
      by_cases hU : unit_literals (simplify_clauses clauses a) a = []
      · rcases findSome_head_of_ne_nil hcl hemp with ⟨lit, hfs⟩
        rcases branch_literal_spec hfs with ⟨c', hc', hlit⟩
        rcases mem_simplify_unassigned hc' hlit with ⟨hla, hnla⟩
        rcases htot' c' hc' lit hlit with ⟨m, hmσ, hmname⟩
        rw [dpll_all_of_branch hcl hemp hconf hU hfs]
        rcases eq_or_neg_of_name_eq hmname with rfl | rfl
        · have hmeas' :
              (σ.filter (fun l => !(decide (l ∈ a ++ [m])))).length < fuel :=
            Nat.lt_of_lt_of_le
              (measure_decrease (List.mem_singleton.2 rfl) hmσ hla)
              (Nat.lt_succ_iff.1 hmeas)
          rcases ih _ (a ++ [m]) σ hσcons
              (by
                intro l hl
                rcases List.mem_append.1 hl with hl | hl
                · exact ha l hl
                · rw [List.mem_singleton] at hl
                  subst hl
                  exact hmσ)
              hsat' htot' hmeas' with ⟨sol, hsol, hsolσ⟩
          exact ⟨sol, List.mem_append.2 (Or.inl hsol), hsolσ⟩
        · have hmeas' :
              (σ.filter (fun l => !(decide (l ∈ a ++ [-lit])))).length < fuel :=
            Nat.lt_of_lt_of_le
              (measure_decrease (List.mem_singleton.2 rfl) hmσ hnla)
              (Nat.lt_succ_iff.1 hmeas)
          rcases ih _ (a ++ [-lit]) σ hσcons
              (by
                intro l hl
                rcases List.mem_append.1 hl with hl | hl
                · exact ha l hl
                · rw [List.mem_singleton] at hl
                  subst hl
                  exact hmσ)
              hsat' htot' hmeas' with ⟨sol, hsol, hsolσ⟩
          exact ⟨sol, List.mem_append.2 (Or.inr hsol), hsolσ⟩
      · rcases List.exists_mem_of_ne_nil _ hU with ⟨u0, hu0⟩
        have hu0a : u0 ∉ a := (mem_unit_literals.1 hu0).2.1
        have ha' : ∀ l ∈ a ++ unit_literals (simplify_clauses clauses a) a, l ∈ σ := by
          intro l hl
          rcases List.mem_append.1 hl with hl | hl
          · exact ha l hl
          · exact hu_mem l hl
        have hmeas' :
            (σ.filter (fun l =>
              !(decide (l ∈ a ++ unit_literals (simplify_clauses clauses a) a)))).length <
              fuel :=
          Nat.lt_of_lt_of_le (measure_decrease hu0 (hu_mem u0 hu0) hu0a)
            (Nat.lt_succ_iff.1 hmeas)
        rcases ih _ _ σ hσcons ha' hsat' htot' hmeas' with ⟨sol, hsol, hsolσ⟩
        rw [dpll_all_of_units hcl hemp hconf hU]
        exact ⟨sol, hsol, hsolσ⟩

/-! ### The canonical variable order: sorted, duplicate-free, and
containing exactly the names of the formula -/

theorem chars_le_trans :
    ∀ a b c : List Char, chars_le a b = true → chars_le b c = true →
      chars_le a c = true := by
  intro a
  induction a with
  | nil =>
    intro b c _ _
    rfl
  | cons x xs ih =>
    intro b c hab hbc
    cases b with
    | nil => simp [chars_le] at hab
    | cons y ys =>
      cases c with
      | nil => simp [chars_le] at hbc
      | cons z zs =>
        simp only [chars_le] at hab hbc ⊢
        by_cases hxy : x.toNat < y.toNat
        · by_cases hyz : y.toNat < z.toNat
          · rw [if_pos (Nat.lt_trans hxy hyz)]
          · by_cases hzy : z.toNat < y.toNat
            · rw [if_neg hyz, if_pos hzy] at hbc
              cases hbc
            · have hyez : y.toNat = z.toNat :=
                Nat.le_antisymm (Nat.not_lt.1 hzy) (Nat.not_lt.1 hyz)
              rw [if_pos (hyez ▸ hxy)]
        · by_cases hyx : y.toNat < x.toNat
          · rw [if_neg hxy, if_pos hyx] at hab
            cases hab
          · have hxey : x.toNat = y.toNat :=
              Nat.le_antisymm (Nat.not_lt.1 hyx) (Nat.not_lt.1 hxy)
            rw [if_neg hxy, if_neg hyx] at hab
            by_cases hyz : y.toNat < z.toNat
            · rw [if_pos (hxey ▸ hyz)]
            · by_cases hzy : z.toNat < y.toNat
              · rw [if_neg hyz, if_pos hzy] at hbc
                cases hbc
              · have hyez : y.toNat = z.toNat :=
                  Nat.le_antisymm (Nat.not_lt.1 hzy) (Nat.not_lt.1 hyz)
                rw [if_neg hyz, if_neg hzy] at hbc
                have hxez : x.toNat = z.toNat := hxey.trans hyez
                rw [if_neg (by rw [hxez]; exact Nat.lt_irrefl _),
                  if_neg (by rw [hxez]; exact Nat.lt_irrefl _)]
                exact ih ys zs hab hbc

theorem chars_le_total :
    ∀ a b : List Char, chars_le a b = true ∨ chars_le b a = true := by
  intro a
  induction a with
  | nil =>
    intro b
    exact Or.inl rfl
  | cons x xs ih =>
    intro b
    cases b with
    | nil => exact Or.inr rfl
    | cons y ys =>
      simp only [chars_le]
      by_cases hxy : x.toNat < y.toNat
      · exact Or.inl (by rw [if_pos hxy])
      · by_cases hyx : y.toNat < x.toNat
        · exact Or.inr (by rw [if_pos hyx])
        · rw [if_neg hxy, if_neg hyx, if_neg hyx, if_neg hxy]
          exact ih ys

instance : IsTrans String (fun a b => name_le a b = true) :=
  ⟨fun a b c hab hbc => chars_le_trans a.data b.data c.data hab hbc⟩

instance : IsTotal String (fun a b => name_le a b = true) :=
  ⟨fun a b => chars_le_total a.data b.data⟩

theorem get_all_variables_sorted (clauses : List Clause) :
    List.Sorted (fun a b => name_le a b = true) (get_all_variables clauses) :=
  List.sorted_insertionSort _ _

theorem get_all_variables_nodup (clauses : List Clause) :
    (get_all_variables clauses).Nodup :=
  (List.perm_insertionSort _ _).symm.nodup (List.nodup_dedup _)

theorem mem_get_all_variables {x : String} {clauses : List Clause} :
    x ∈ get_all_variables clauses ↔ ∃ c ∈ clauses, ∃ l ∈ c, l.name = x := by
  rw [get_all_variables, List.mem_insertionSort, List.mem_dedup, List.mem_flatten]
  constructor
  · rintro ⟨lnames, hmem, hx⟩
    rcases List.mem_map.1 hmem with ⟨c, hc, rfl⟩
    rcases List.mem_map.1 hx with ⟨l, hl, rfl⟩
    exact ⟨c, hc, l, hl, rfl⟩
  · rintro ⟨c, hc, l, hl, rfl⟩
    exact ⟨c.map (fun l => l.name), List.mem_map.2 ⟨c, hc, rfl⟩, List.mem_map.2 ⟨l, hl, rfl⟩⟩

/-! ### Entry-point corollaries -/

theorem bt_entry_shape {clauses : List Clause} {sol : Assignment}
    (h : sol ∈ find_all_solutions_backtrack_no_timing clauses) :
    sol.map (fun l => l.name) = get_all_variables clauses ∧
      evaluate_formula clauses sol = true := by
  rcases backtrack_shape_aux clauses (get_all_variables clauses) [] sol h with
    ⟨ext, hsol, hnames, heval⟩
  rw [List.nil_append] at hsol
  subst hsol
  exact ⟨hnames, heval⟩

theorem bt_entry_consistent {clauses : List Clause} {sol : Assignment}
    (h : sol ∈ find_all_solutions_backtrack_no_timing clauses) :
    ∀ l ∈ sol, -l ∉ sol :=
  backtrack_consistent_aux clauses (get_all_variables clauses) []
    (by intro l hl; cases hl)
    (by intro v _; constructor <;> intro hm <;> cases hm)
    (get_all_variables_nodup clauses) sol h

theorem dpll_entry_consistent {clauses : List Clause} {sol : Assignment}
    (h : sol ∈ find_all_solutions clauses) : ∀ l ∈ sol, -l ∉ sol :=
  dpll_all_consistent_aux _ _ [] (by intro l hl; cases hl) sol h

theorem dpll_entry_names {clauses : List Clause} {sol : Assignment}
    (h : sol ∈ find_all_solutions clauses) :
    ∀ l ∈ sol, l.name ∈ get_all_variables clauses := by
  intro l hl
  rcases dpll_names_aux _ _ _ _ h l hl with ⟨m, hm, _⟩ | ⟨c, hc, m, hm, hname⟩
  · cases hm
  · exact mem_get_all_variables.2 ⟨c, hc, m, hm, hname⟩

theorem dpll_entry_sound {clauses : List Clause} {sol : Assignment}
    (h : sol ∈ find_all_solutions clauses) :
    evaluate_formula clauses sol = true :=
  (evaluate_formula_iff _ _).2 (dpll_all_sound_aux _ _ _ _ h).2

theorem bt_entry_sound {clauses : List Clause} {sol : Assignment}
    (h : sol ∈ find_all_solutions_backtrack_no_timing clauses) :
    evaluate_formula clauses sol = true :=
  (bt_entry_shape h).2

theorem first_entry_sound {clauses : List Clause} {sol : Assignment}
    (h : find_first_solution clauses = some sol) :
    evaluate_formula clauses sol = true :=
  (evaluate_formula_iff _ _).2 (dpll_first_sound_aux _ _ _ _ h).2

/-! ### The two refinement directions between the engines -/

theorem bt_to_dpll {clauses : List Clause} {σ : Assignment}
    (h : σ ∈ find_all_solutions_backtrack_no_timing clauses) :
    ∃ sol ∈ find_all_solutions clauses, ∀ l ∈ sol, l ∈ σ := by
  obtain ⟨hnames, heval⟩ := bt_entry_shape h
  have hcons := bt_entry_consistent h
  have hlen : σ.length = (get_all_variables clauses).length := by
    rw [← hnames, List.length_map]
  refine dpll_complete_aux (solver_fuel clauses) clauses [] σ hcons
    (by intro l hl; cases hl)
    ((evaluate_formula_iff _ _).1 heval) ?_ ?_
  · intro c hc l hl
    have hx : l.name ∈ get_all_variables clauses :=
      mem_get_all_variables.2 ⟨c, hc, l, hl, rfl⟩
    rw [← hnames] at hx
    rcases List.mem_map.1 hx with ⟨m, hm, hmname⟩
    exact ⟨m, hm, hmname⟩
  · have hfil : σ.filter (fun l => !(decide (l ∈ ([] : Assignment)))) = σ := by
      simp
    rw [hfil, solver_fuel]
    exact Nat.lt_succ_of_le (Nat.le_of_eq hlen)

/-- The canonical total assignment over the formula's sorted variable
list that agrees with a given (partial) solution: used to relate DPLL
solutions to backtracking solutions. -/
def canonical_extension (clauses : List Clause) (sol : Assignment) : Assignment :=
  (get_all_variables clauses).map
    (fun v => Variable.mk v (decide (Variable.mk v true ∈ sol)))

theorem dpll_to_bt {clauses : List Clause} {sol : Assignment}
    (h : sol ∈ find_all_solutions clauses) :
    ∃ σ ∈ find_all_solutions_backtrack_no_timing clauses, ∀ l ∈ sol, l ∈ σ := by
  have hsolcons := dpll_entry_consistent h
  have hsub : ∀ l ∈ sol, l ∈ canonical_extension clauses sol := by
    intro l hl
    have hname := dpll_entry_names h l hl
    cases l with
    | mk n b =>
      cases b
      · have hpos : Variable.mk n true ∉ sol := by
          intro hpos
          exact hsolcons (Variable.mk n true) hpos hl
        exact List.mem_map.2 ⟨n, hname, by simp [hpos]⟩
      · exact List.mem_map.2 ⟨n, hname, by simp [hl]⟩
  have hσnames :
      (canonical_extension clauses sol).map (fun l => l.name) =
        get_all_variables clauses := by
    simp [canonical_extension, List.map_map, Function.comp_def]
  have hσcons : ∀ l ∈ canonical_extension clauses sol,
      -l ∉ canonical_extension clauses sol := by
    intro l hlσ hnegσ
    rcases List.mem_map.1 hlσ with ⟨v, _, rfl⟩
    rcases List.mem_map.1 hnegσ with ⟨v', _, hv'eq⟩
    have hvname : v' = v := congrArg Variable.name hv'eq
    subst hvname
    have hpos := congrArg Variable.positive hv'eq
    simp [var_neg_def] at hpos
  have hσeval : evaluate_formula clauses (canonical_extension clauses sol) = true := by
    apply (evaluate_formula_iff _ _).2
    intro c hc
    exact is_satisfied_mono hsub ((evaluate_formula_iff _ _).1 (dpll_entry_sound h) c hc)
  refine ⟨canonical_extension clauses sol, ?_, hsub⟩
  have hmem := backtrack_complete_aux clauses (canonical_extension clauses sol) []
    (by rw [List.nil_append]; exact hσeval)
    (by rw [List.nil_append]; exact hσcons)
  rw [List.nil_append, hσnames] at hmem
  exact hmem

/-! ### An empty clause anywhere forces UNSAT in every engine -/

theorem dpll_all_empty_clause {clauses : List Clause} (h : [] ∈ clauses) :
    ∀ (fuel : Nat) (a : Assignment), dpll_all_solutions fuel clauses a = [] := by
  intro fuel a
  cases fuel with
  | zero => rfl
  | succ fuel =>
    have hmem : ([] : Clause) ∈ simplify_clauses clauses a :=
      mem_simplify_clauses.2 ⟨[], h, rfl, rfl⟩
    exact dpll_all_of_empty (List.ne_nil_of_mem hmem)
      (List.any_eq_true.2 ⟨[], hmem, rfl⟩) fuel

theorem dpll_first_empty_clause {clauses : List Clause} (h : [] ∈ clauses) :
    ∀ (fuel : Nat) (a : Assignment), dpll_first_solution fuel clauses a = none := by
  intro fuel a
  cases fuel with
  | zero => rfl
  | succ fuel =>
    have hmem : ([] : Clause) ∈ simplify_clauses clauses a :=
      mem_simplify_clauses.2 ⟨[], h, rfl, rfl⟩
    exact dpll_first_of_empty (List.ne_nil_of_mem hmem)
      (List.any_eq_true.2 ⟨[], hmem, rfl⟩) fuel

theorem backtrack_empty_clause {clauses : List Clause} (h : [] ∈ clauses) :
    ∀ (vars : List String) (a : Assignment),
      (backtrack_all_solutions clauses vars a).2 = [] := by
  intro vars a
  cases vars with
  | nil =>
    have hev : evaluate_formula clauses a = false := by
      apply bool_eq_false
      intro he
      have := (evaluate_formula_iff _ _).1 he [] h
      simp [is_satisfied] at this
    simp [backtrack_all_solutions, hev]
  | cons v rest =>
    rw [backtrack_snd_cons]
    have h1 : (clauses.any fun c => is_falsified c (a ++ [Variable.mk v true])) = true :=
      List.any_eq_true.2 ⟨[], h, rfl⟩
    have h2 : (clauses.any fun c => is_falsified c (a ++ [Variable.mk v false])) = true :=
      List.any_eq_true.2 ⟨[], h, rfl⟩
    rw [if_pos h1, if_pos h2]
    rfl

/-! ### The verification helper agrees with formula evaluation -/

theorem verify_solution_eq_evaluate (cs : List Clause) (a : Assignment) :
    verify_solution cs a = evaluate_formula cs a := by
  induction cs with
  | nil => rfl
  | cons c cs ih =>
    by_cases h : is_satisfied c a = true
    · simp [verify_solution, evaluate_formula, h, ih]
    · simp [verify_solution, evaluate_formula, h]

/-! ## Claim theorems -/

/-- C1 (counterexample): on the formula `[[q, r]]`, the set of
assignments (as unordered sets of literal-sets) returned by the DPLL
all-solutions entry point differs from that of the backtracking entry
point: DPLL returns the partial assignment `[q]`, which no backtracking
solution equals as a literal-set. -/
theorem C1_counterexample :
    same_solution_sets
      (find_all_solutions [[⟨"q", true⟩, ⟨"r", true⟩]])
      (find_all_solutions_backtrack_no_timing [[⟨"q", true⟩, ⟨"r", true⟩]]) = false := by
  decide

/-- C1 (amended): for every formula, the two all-solutions entry points
agree up to totalization rather than being set-identical: every
backtracking solution extends some DPLL solution as a literal-set, and
every DPLL solution is extended by some backtracking solution. -/
theorem C1_agreement_amended (clauses : List Clause) :
    (∀ σ ∈ find_all_solutions_backtrack_no_timing clauses,
      ∃ sol ∈ find_all_solutions clauses, ∀ l ∈ sol, l ∈ σ) ∧
    (∀ sol ∈ find_all_solutions clauses,
      ∃ σ ∈ find_all_solutions_backtrack_no_timing clauses, ∀ l ∈ sol, l ∈ σ) :=
  ⟨fun _ hσ => bt_to_dpll hσ, fun _ hsol => dpll_to_bt hsol⟩

/-- C1 (witness): the amended agreement instantiated on `[[q, r]]` at
the backtracking solution `[q, r]`. -/
theorem C1_witness :
    (([⟨"q", true⟩, ⟨"r", true⟩] : Assignment) ∈
        find_all_solutions_backtrack_no_timing [[⟨"q", true⟩, ⟨"r", true⟩]]) ∧
      ∃ sol ∈ find_all_solutions [[⟨"q", true⟩, ⟨"r", true⟩]],
        ∀ l ∈ sol, l ∈ ([⟨"q", true⟩, ⟨"r", true⟩] : Assignment) :=
  ⟨by decide, (C1_agreement_amended _).1 _ (by decide)⟩

/-- C2 (code bug): on the satisfiable formula `[[p, q]]` the
first-solution entry point returns the no-solution value, because the
source's branching step discards the results of both recursive calls
and falls through to a bare `return`; the assignment `[p]` witnesses
satisfiability. -/
theorem C2_first_solution_bug :
    find_first_solution [[⟨"p", true⟩, ⟨"q", true⟩]] = none ∧
      evaluate_formula [[⟨"p", true⟩, ⟨"q", true⟩]] [⟨"p", true⟩] = true := by
  decide

/-- C3 (counterexample): `is_falsified` applied to the empty clause and
the empty assignment returns `true`, not `false` as the claim states. -/
theorem C3_counterexample : is_falsified [] [] = true := by decide

/-- C3 (amended): for every assignment, `is_falsified` applied to the
empty clause returns `true` (the all-literals-false loop is vacuously
exhausted); for every clause it returns `true` exactly when the negation
of every literal of the clause is present in the assignment. -/
theorem C3_is_falsified_amended :
    (∀ a : Assignment, is_falsified [] a = true) ∧
      ∀ (c : Clause) (a : Assignment),
        is_falsified c a = true ↔ ∀ l ∈ c, -l ∈ a :=
  ⟨fun _ => rfl, fun c a => is_falsified_iff c a⟩

/-- C4: soundness of every solving entry point — whenever
`find_first_solution` returns an assignment, or an assignment is in the
output of `find_all_solutions` or of
`find_all_solutions_backtrack_no_timing`, evaluating the original
formula at that assignment yields `true`. -/
theorem C4_soundness (clauses : List Clause) (sol : Assignment) :
    (find_first_solution clauses = some sol → evaluate_formula clauses sol = true) ∧
    (sol ∈ find_all_solutions clauses → evaluate_formula clauses sol = true) ∧
    (sol ∈ find_all_solutions_backtrack_no_timing clauses →
      evaluate_formula clauses sol = true) :=
  ⟨fun h => first_entry_sound h, fun h => dpll_entry_sound h, fun h => bt_entry_sound h⟩

/-- C4 (witness): soundness instantiated on `[[q, r]]` at the DPLL
solution `[q]`. -/
theorem C4_witness :
    (([⟨"q", true⟩] : Assignment) ∈ find_all_solutions [[⟨"q", true⟩, ⟨"r", true⟩]]) ∧
      evaluate_formula [[⟨"q", true⟩, ⟨"r", true⟩]] [⟨"q", true⟩] = true :=
  ⟨by decide, (C4_soundness _ _).2.1 (by decide)⟩

/-- C5: a formula containing an empty clause anywhere is reported UNSAT
by all three entry points, regardless of the other clauses. -/
theorem C5_empty_clause_unsat (clauses : List Clause) (h : [] ∈ clauses) :
    find_first_solution clauses = none ∧ find_all_solutions clauses = [] ∧
      find_all_solutions_backtrack_no_timing clauses = [] :=
  ⟨dpll_first_empty_clause h _ [], dpll_all_empty_clause h _ [],
    backtrack_empty_clause h _ []⟩

/-- C5 (witness): the empty-clause theorem instantiated on `[[], [p]]`. -/
theorem C5_witness :
    (([] : Clause) ∈ ([[], [⟨"p", true⟩]] : List Clause)) ∧
      (find_first_solution [[], [⟨"p", true⟩]] = none ∧
        find_all_solutions [[], [⟨"p", true⟩]] = [] ∧
        find_all_solutions_backtrack_no_timing [[], [⟨"p", true⟩]] = []) :=
  ⟨by decide, C5_empty_clause_unsat _ (by decide)⟩

/-- C6: if, after simplification, the clause set is non-empty with no
empty clause but the collected unassigned unit literals contain both a
literal and its negation, the DPLL branch fails immediately with the
no-solution outcome in both modes; concretely, on `[[p], [-p]]` the
first-solution entry point returns the no-result value and both
all-solutions entry points return the empty sequence. -/
theorem C6_unit_conflict :
    (∀ (fuel : Nat) (clauses : List Clause) (a : Assignment),
      simplify_clauses clauses a ≠ [] →
      ((simplify_clauses clauses a).any fun c => c.isEmpty) = false →
      has_unit_conflict (unit_literals (simplify_clauses clauses a) a) = true →
      dpll_all_solutions (fuel + 1) clauses a = [] ∧
        dpll_first_solution (fuel + 1) clauses a = none) ∧
    find_first_solution [[⟨"p", true⟩], [⟨"p", false⟩]] = none ∧
    find_all_solutions [[⟨"p", true⟩], [⟨"p", false⟩]] = [] ∧
    find_all_solutions_backtrack_no_timing [[⟨"p", true⟩], [⟨"p", false⟩]] = [] :=
  ⟨fun fuel _ _ hne hemp hconf =>
    ⟨dpll_all_of_conflict hne hemp hconf fuel, dpll_first_of_conflict hne hemp hconf fuel⟩,
    by decide, by decide, by decide⟩

/-- C6 (witness): the conflict rule instantiated at `[[p], [-p]]` with
the empty assignment and fuel 1. -/
theorem C6_witness :
    (simplify_clauses [[⟨"p", true⟩], [⟨"p", false⟩]] [] ≠ []) ∧
      ((simplify_clauses [[⟨"p", true⟩], [⟨"p", false⟩]] []).any fun c => c.isEmpty) = false ∧
      has_unit_conflict
        (unit_literals (simplify_clauses [[⟨"p", true⟩], [⟨"p", false⟩]] []) []) = true ∧
      dpll_all_solutions 1 [[⟨"p", true⟩], [⟨"p", false⟩]] [] = [] ∧
      dpll_first_solution 1 [[⟨"p", true⟩], [⟨"p", false⟩]] [] = none :=
  ⟨by decide, by decide, by decide,
    (C6_unit_conflict.1 0 _ _ (by decide) (by decide) (by decide)).1,
    (C6_unit_conflict.1 0 _ _ (by decide) (by decide) (by decide)).2⟩

/-- C7: from any consistent state, the DPLL engine (both modes) and the
backtracking enumerator (from a state whose pending variables are fresh
and duplicate-free) only ever produce consistent assignments — no
assignment ever contains both a literal and its negation; in particular
every assignment returned by the three entry points is consistent. -/
theorem C7_consistency :
    (∀ (fuel : Nat) (clauses : List Clause) (a : Assignment),
      consistent a = true →
      ∀ sol ∈ dpll_all_solutions fuel clauses a, consistent sol = true) ∧
    (∀ (fuel : Nat) (clauses : List Clause) (a sol : Assignment),
      consistent a = true → dpll_first_solution fuel clauses a = some sol →
      consistent sol = true) ∧
    (∀ (clauses : List Clause) (vars : List String) (a : Assignment),
      consistent a = true → vars.Nodup →
      (∀ v ∈ vars, Variable.mk v true ∉ a ∧ Variable.mk v false ∉ a) →
      ∀ sol ∈ (backtrack_all_solutions clauses vars a).2, consistent sol = true) ∧
    (∀ clauses : List Clause,
      (∀ sol ∈ find_all_solutions clauses, consistent sol = true) ∧
      (∀ sol, find_first_solution clauses = some sol → consistent sol = true) ∧
      (∀ sol ∈ find_all_solutions_backtrack_no_timing clauses,
        consistent sol = true)) := by
  refine ⟨?_, ?_, ?_, ?_⟩
  · intro fuel clauses a hca sol hsol
    exact (consistent_iff sol).2
      (dpll_all_consistent_aux fuel clauses a ((consistent_iff a).1 hca) sol hsol)
  · intro fuel clauses a sol hca hsol
    exact (consistent_iff sol).2
      (dpll_first_consistent_aux fuel clauses a sol ((consistent_iff a).1 hca) hsol)
  · intro clauses vars a hca hnd hfresh sol hsol
    exact (consistent_iff sol).2
      (backtrack_consistent_aux clauses vars a ((consistent_iff a).1 hca) hfresh hnd sol hsol)
  · intro clauses
    refine ⟨?_, ?_, ?_⟩
    · intro sol hsol
      exact (consistent_iff sol).2 (dpll_entry_consistent hsol)
    · intro sol hsol
      exact (consistent_iff sol).2
        (dpll_first_consistent_aux _ _ [] sol (by intro l hl; cases hl) hsol)
    · intro sol hsol
      exact (consistent_iff sol).2 (bt_entry_consistent hsol)

/-- C7 (witness): consistency instantiated on `[[q, r]]` at the DPLL
solution `[q]`. -/
theorem C7_witness :
    (consistent [] = true) ∧
      (([⟨"q", true⟩] : Assignment) ∈ find_all_solutions [[⟨"q", true⟩, ⟨"r", true⟩]]) ∧
      consistent [⟨"q", true⟩] = true :=
  ⟨by decide, by decide,
    (C7_consistency.2.2.2 [[⟨"q", true⟩, ⟨"r", true⟩]]).1 [⟨"q", true⟩] (by decide)⟩

/-- C8: the backtracking enumerator's variable order is the list of all
names occurring in the formula, duplicate-free and sorted by name; every
returned solution assigns exactly those variables in exactly that order;
and at every decision level the solutions produced under the positive
literal precede those produced under the negative literal.  (As a pure
function of the formula, the enumeration is deterministic.) -/
theorem C8_backtrack_order :
    (∀ clauses : List Clause,
      List.Sorted (fun a b => name_le a b = true) (get_all_variables clauses) ∧
      (get_all_variables clauses).Nodup ∧
      ∀ x : String, x ∈ get_all_variables clauses ↔
        ∃ c ∈ clauses, ∃ l ∈ c, l.name = x) ∧
    (∀ (clauses : List Clause) (sol : Assignment),
      sol ∈ find_all_solutions_backtrack_no_timing clauses →
      sol.map (fun l => l.name) = get_all_variables clauses) ∧
    (∀ (clauses : List Clause) (v : String) (rest : List String) (a : Assignment),
      ∃ S T : List Assignment,
        (backtrack_all_solutions clauses (v :: rest) a).2 = S ++ T ∧
        (∀ s ∈ S, Variable.mk v true ∈ s) ∧
        (∀ t ∈ T, Variable.mk v false ∈ t)) := by
  refine ⟨fun clauses => ⟨get_all_variables_sorted clauses, get_all_variables_nodup clauses,
    fun _ => mem_get_all_variables⟩,
    fun _ sol h => (bt_entry_shape h).1, ?_⟩
  intro clauses v rest a
  refine ⟨if clauses.any (fun c => is_falsified c (a ++ [Variable.mk v true])) then []
      else (backtrack_all_solutions clauses rest (a ++ [Variable.mk v true])).2,
    if clauses.any (fun c => is_falsified c (a ++ [Variable.mk v false])) then []
      else (backtrack_all_solutions clauses rest (a ++ [Variable.mk v false])).2,
    backtrack_snd_cons clauses v rest a, ?_, ?_⟩
  · intro s hs
    by_cases hp : (clauses.any fun c => is_falsified c (a ++ [Variable.mk v true])) = true
    · rw [if_pos hp] at hs
      cases hs
    · rw [if_neg hp] at hs
      rcases backtrack_shape_aux clauses rest _ s hs with ⟨ext, rfl, _, _⟩
      exact List.mem_append.2
        (Or.inl (List.mem_append.2 (Or.inr (List.mem_singleton.2 rfl))))
  · intro t ht
    by_cases hp : (clauses.any fun c => is_falsified c (a ++ [Variable.mk v false])) = true
    · rw [if_pos hp] at ht
      cases ht
    · rw [if_neg hp] at ht
      rcases backtrack_shape_aux clauses rest _ t ht with ⟨ext, rfl, _, _⟩
      exact List.mem_append.2
        (Or.inl (List.mem_append.2 (Or.inr (List.mem_singleton.2 rfl))))

/-- C8 (witness): the solution shape instantiated on `[[q, r]]` at the
backtracking solution `[q, r]`. -/
theorem C8_witness :
    (([⟨"q", true⟩, ⟨"r", true⟩] : Assignment) ∈
        find_all_solutions_backtrack_no_timing [[⟨"q", true⟩, ⟨"r", true⟩]]) ∧
      List.map (fun l => l.name) ([⟨"q", true⟩, ⟨"r", true⟩] : Assignment) =
        get_all_variables [[⟨"q", true⟩, ⟨"r", true⟩]] :=
  ⟨by decide, C8_backtrack_order.2.1 _ _ (by decide)⟩

/-- C9: for every formula and assignment, `verify_solution` returns the
same boolean as `evaluate_formula` (the diagnostic printing does not
change the result), and both are `true` exactly when every clause has at
least one literal present in the assignment. -/
theorem C9_verify_eq_evaluate (clauses : List Clause) (a : Assignment) :
    verify_solution clauses a = evaluate_formula clauses a ∧
      (verify_solution clauses a = true ↔ ∀ c ∈ clauses, ∃ l ∈ c, l ∈ a) := by
  have he := verify_solution_eq_evaluate clauses a
  refine ⟨he, ?_⟩
  rw [he, evaluate_formula_iff]
  constructor
  · intro hall c hc
    exact (is_satisfied_iff c a).1 (hall c hc)
  · intro hall c hc
    exact (is_satisfied_iff c a).2 (hall c hc)

/-- C10: every call to the backtracking enumerator returns with its
assignment state equal to the value it had on entry — every appended
literal is popped before return, so sibling branches observe the same
assignment prefix. -/
theorem C10_assignment_restored (clauses : List Clause) (vars : List String)
    (a : Assignment) : (backtrack_all_solutions clauses vars a).1 = a :=
  backtrack_fst clauses vars a
